import Mathlib

/-!
# Verification of the json-streamer library (src/lib.rs)

Shallow embedding of the callback-based streaming JSON library built on the
rustc_serialize pull parser. The embedding models:

* `json::JsonEvent` as `JsonEvent` (the `Error(_)` variant becomes
  `errorEvent`; its payload is never inspected by this library);
* `json::StackElement` as `StackEl`;
* the mutable `json::Parser<T>` as a list of pending events, each paired
  with the stack-top view the parser would report right after pulling that
  event (`parser.stack().top()` is read only immediately after `next()`);
* `json::Json` as `Json`; the `f64` payload of `F64` is carried as an
  opaque bit pattern (`Nat`), since the library only moves it around and
  never performs floating-point arithmetic on it;
* `json::Object` (a `BTreeMap<String, Json>`) as a key-sorted association
  list, with `bInsert` as `BTreeMap::insert`;
* Rust panics as `Except.error` carrying the panic message (the `{:?}`
  formatting of the offending value is elided from the message);
* `println!` output as a ghost log of the reported events.

The recursive consumption functions (`read_value`, the free `read_object`,
`read_array` and the loop inside `array_handler`) are defined with an
explicit fuel argument, structurally recursive on the fuel, so that they
compute by `rfl`; the public wrappers supply `2 * length + 2` fuel, which
the consumption lemmas show is always sufficient on the inputs they are
used at. Each loop iteration of the source consumes at least one event, so
the fuel never runs out on real inputs.

A handler receives the field name, the first event of the field value
(already pulled by the traversal loop) and the exclusive parser reference.
Since the parser is a forward-only cursor, the net observable effect of a
handler on the parser is that it advanced it by some number of events;
handlers are therefore embedded as functions returning that count (plus a
log), and the traversal loop drops that many events. This makes the
forward-only discipline of the Rust API structural in the model.
-/

namespace JsonStreamer

/-- Events of the rustc_serialize pull parser (`json::JsonEvent`). -/
inductive JsonEvent where
  | objectStart
  | objectEnd
  | arrayStart
  | arrayEnd
  | booleanValue (b : Bool)
  | i64Value (i : Int)
  | u64Value (u : Nat)
  | f64Value (bits : Nat)
  | stringValue (s : String)
  | nullValue
  | errorEvent
deriving DecidableEq

/-- Stack frames of the parser context (`json::StackElement`): an array
index or a field name. -/
inductive StackEl where
  | Index (i : Nat)
  | Key (k : String)
deriving DecidableEq

/-- The parser (`json::Parser<T>`), modelled by its remaining event stream.
Each pending event is paired with the stack-top view (`stack().top()`) the
parser reports immediately after that event has been pulled; the library
reads that view only at that moment. -/
abbrev Parser := List (JsonEvent × Option StackEl)

/-- Materialized JSON values (`json::Json`). `Object` is a key-sorted
association list standing for `BTreeMap<String, Json>`. -/
inductive Json where
  | Null
  | Boolean (b : Bool)
  | I64 (i : Int)
  | U64 (u : Nat)
  | F64 (bits : Nat)
  | String (s : String)
  | Array (xs : List Json)
  | Object (fs : List (String × Json))

/-- Lexicographic strict order on character lists, by code point. -/
def charListLt : List Char → List Char → Bool
  | [], [] => false
  | [], _ :: _ => true
  | _ :: _, [] => false
  | a :: s, b :: t =>
    if a.toNat < b.toNat then true
    else if b.toNat < a.toNat then false
    else charListLt s t

/-- Strict order on strings (the `Ord` used by `BTreeMap<String, _>`),
lexicographic by code point. -/
def strLt (s t : String) : Bool := charListLt s.data t.data

/-- Insertion into a key-sorted association list, with the replace-on-equal
semantics of `BTreeMap::insert`. -/
def bInsert {α : Type} : List (String × α) → String → α → List (String × α)
  | [], k, v => [(k, v)]
  | (k', v') :: t, k, v =>
    if strLt k k' then (k, v) :: (k', v') :: t
    else if k = k' then (k, v) :: t
    else (k', v') :: bInsert t k v

/-- Lookup in an association list (`BTreeMap::get`). -/
def bLookup {α : Type} : List (String × α) → String → Option α
  | [], _ => none
  | (k', v) :: t, k => if k = k' then some v else bLookup t k

mutual

/-- Fueled embedding of `read_value` (src/lib.rs lines 117-130). Given the
first event of a value and the rest of the stream, consumes the complete
value and returns it together with the remaining stream and the ghost log
of events reported by the `println!` in the catch-all arm. `none` means the
fuel ran out (never happens at the fuel the wrappers supply). -/
def readValueF : Nat → JsonEvent → Parser →
    Option (Except String (Json × Parser × List JsonEvent))
  | 0, _, _ => none
  | n + 1, .objectStart, p =>
    match readObjectF n p [] with
    | none => none
    | some (.error e) => some (.error e)
    | some (.ok (o, p', lg)) => some (.ok (.Object o, p', lg))
  | n + 1, .arrayStart, p =>
    match readArrayF n p [] with
    | none => none
    | some (.error e) => some (.error e)
    | some (.ok (xs, p', lg)) => some (.ok (.Array xs, p', lg))
  | _ + 1, .booleanValue b, p => some (.ok (.Boolean b, p, []))
  | _ + 1, .i64Value i, p => some (.ok (.I64 i, p, []))
  | _ + 1, .u64Value u, p => some (.ok (.U64 u, p, []))
  | _ + 1, .f64Value f, p => some (.ok (.F64 f, p, []))
  | _ + 1, .stringValue s, p => some (.ok (.String s, p, []))
  | _ + 1, .nullValue, p => some (.ok (.Null, p, []))
  | _ + 1, .objectEnd, p => some (.ok (.Null, p, [.objectEnd]))
  | _ + 1, .arrayEnd, p => some (.ok (.Null, p, [.arrayEnd]))
  | _ + 1, .errorEvent, p => some (.ok (.Null, p, [.errorEvent]))

/-- Fueled embedding of the free function `read_object` (src/lib.rs lines
141-153): a `StreamReader` whose default handler inserts
`read_value(first, parser)` under the current key into the accumulating
result object. The closure-captured `result` map is threaded as `acc`. The
loop pulls an event; `None` or `ObjectEnd` returns; otherwise the key is
recovered from the stack top, panicking (`Except.error`) if the top frame
is not a `Key`. -/
def readObjectF : Nat → Parser → List (String × Json) →
    Option (Except String (List (String × Json) × Parser × List JsonEvent))
  | 0, _, _ => none
  | _ + 1, [], acc => some (.ok (acc, [], []))
  | n + 1, (token, top) :: rest, acc =>
    if token = .objectEnd then some (.ok (acc, rest, []))
    else
      match top with
      | some (.Key k) =>
        match readValueF n token rest with
        | none => none
        | some (.error e) => some (.error e)
        | some (.ok (v, p', lg)) =>
          match readObjectF n p' (bInsert acc k v) with
          | none => none
          | some (.error e) => some (.error e)
          | some (.ok (o, pf, lg')) => some (.ok (o, pf, lg ++ lg'))
      | some (.Index _) => some (.error "invalid state")
      | none => some (.error "no stack???")

/-- Fueled embedding of the element loop of `array_handler` (src/lib.rs
lines 100-114), as used by `read_array`: pulls events, materializing each
element with `read_value` and passing it to the per-element callback, until
`ArrayEnd` or exhaustion of the source. The sequence of values handed to
the callback is returned as a list (threaded as `acc`, matching the
`result.push(item)` callback of `read_array`); any `FnMut` callback is a
fold over that sequence. -/
def readArrayF : Nat → Parser → List Json →
    Option (Except String (List Json × Parser × List JsonEvent))
  | 0, _, _ => none
  | _ + 1, [], acc => some (.ok (acc, [], []))
  | n + 1, (token, _) :: rest, acc =>
    if token = .arrayEnd then some (.ok (acc, rest, []))
    else
      match readValueF n token rest with
      | none => none
      | some (.error e) => some (.error e)
      | some (.ok (v, p', lg)) =>
        match readArrayF n p' (acc ++ [v]) with
        | none => none
        | some (.error e) => some (.error e)
        | some (.ok (xs, pf, lg')) => some (.ok (xs, pf, lg ++ lg'))

end

/-- Public `read_value`: reads a complete value from the stream. The fuel
`2 * p.length + 2` is always sufficient (each loop iteration of the source
consumes at least one event). -/
def read_value (first : JsonEvent) (p : Parser) :
    Except String (Json × Parser × List JsonEvent) :=
  (readValueF (2 * p.length + 2) first p).getD (.error "insufficient fuel")

/-- Public free `read_object`: reads a complete object body (ObjectStart
already consumed), returning the accumulated `json::Object`. -/
def read_object (p : Parser) :
    Except String (List (String × Json) × Parser × List JsonEvent) :=
  (readObjectF (2 * p.length + 2) p []).getD (.error "insufficient fuel")

/-- Embedding of `array_handler` (src/lib.rs lines 100-114) applied to a
first event and parser: panics with "non-array found" unless the first
event is `ArrayStart`, then runs the element loop. The returned list is
the ordered sequence of values passed to the per-element callback. -/
def array_handler (first : JsonEvent) (p : Parser) :
    Except String (List Json × Parser × List JsonEvent) :=
  if first = .arrayStart then
    (readArrayF (2 * p.length + 2) p []).getD (.error "insufficient fuel")
  else .error "non-array found"

/-- Public `read_array` (src/lib.rs lines 133-138): invokes `array_handler`
with `ArrayStart` and a callback pushing each element into the result. -/
def read_array (p : Parser) : Except String (List Json × Parser × List JsonEvent) :=
  array_handler .arrayStart p

/-- Embedding of `copy_handler` (src/lib.rs lines 92-97): materializes the
value and inserts it under the field name into the captured target object,
which is threaded explicitly. -/
def copy_handler (target : List (String × Json)) (key : String)
    (first : JsonEvent) (p : Parser) :
    Except String (List (String × Json) × Parser × List JsonEvent) :=
  match read_value first p with
  | .error e => .error e
  | .ok (v, p', lg) => .ok (bInsert target key v, p', lg)

/-- Handlers (`Handler<'a,T>`): a handler receives the field name, the
first (already pulled) event of the field value and the exclusive parser
reference. Its net observable effect on the forward-only parser is to
advance it by some number of events, so it is embedded as a function
returning that count plus the ghost log; panics are `Except.error`. -/
abbrev MHandler := String → JsonEvent → Parser → Except String (Nat × List JsonEvent)

/-- Embedding of `dummy_handler` (src/lib.rs lines 32-37): consumes the
value with `read_value` and drops the result. -/
def dummy_handler : MHandler := fun _ first p =>
  match read_value first p with
  | .error e => .error e
  | .ok (_, p', lg) => .ok (p.length - p'.length, lg)

/-- Embedding of `StreamReader`: the registry mapping field names to
handlers (`BTreeMap<String, Handler>`) plus the default handler. -/
structure StreamReader where
  handlers : List (String × MHandler)
  default_handler : MHandler

/-- `StreamReader::new`: empty registry, `dummy_handler` as default. -/
def StreamReader.new : StreamReader := ⟨[], dummy_handler⟩

/-- `StreamReader::set_default_handler`. -/
def StreamReader.set_default_handler (sr : StreamReader) (h : MHandler) : StreamReader :=
  { sr with default_handler := h }

/-- `StreamReader::set_handler` (src/lib.rs lines 60-62): registers a
handler for a key via `BTreeMap::insert`. -/
def StreamReader.set_handler (sr : StreamReader) (name : String) (h : MHandler) :
    StreamReader :=
  { sr with handlers := bInsert sr.handlers name h }

/-- Fueled embedding of `StreamReader::read_object` (src/lib.rs lines
67-86). Loop: pull an event; `None` or `ObjectEnd` returns; otherwise
recover the key from the stack top (panicking if the top frame is not a
`Key`), look the key up in the registry falling back to the default
handler, and invoke the handler. The second result component is the ghost
dispatch trace: one entry `(key, first event, registered?)` per handler
invocation, in order; the third collects the handler logs. -/
def srReadObjectF : Nat → StreamReader → Parser →
    Option (Except String (Parser × List (String × JsonEvent × Bool) × List JsonEvent))
  | 0, _, _ => none
  | _ + 1, _, [] => some (.ok ([], [], []))
  | n + 1, sr, (token, top) :: rest =>
    if token = .objectEnd then some (.ok (rest, [], []))
    else
      match top with
      | some (.Key k) =>
        match (bLookup sr.handlers k).getD sr.default_handler k token rest with
        | .error e => some (.error e)
        | .ok (cnt, lg) =>
          match srReadObjectF n sr (rest.drop cnt) with
          | none => none
          | some (.error e) => some (.error e)
          | some (.ok (pf, tr, lg')) =>
            some (.ok (pf, (k, token, (bLookup sr.handlers k).isSome) :: tr, lg ++ lg'))
      | some (.Index _) => some (.error "invalid state")
      | none => some (.error "no stack???")

/-- Public `StreamReader::read_object`: drives one record body. The fuel
`p.length + 1` is always sufficient since every loop iteration pulls at
least one event and handlers can only advance the cursor. -/
def StreamReader.read_object (sr : StreamReader) (p : Parser) :
    Except String (Parser × List (String × JsonEvent × Bool) × List JsonEvent) :=
  (srReadObjectF (p.length + 1) sr p).getD (.error "insufficient fuel")

/-- First event of the serialized form of a value. -/
def firstEvent : Json → JsonEvent
  | .Null => .nullValue
  | .Boolean b => .booleanValue b
  | .I64 i => .i64Value i
  | .U64 u => .u64Value u
  | .F64 f => .f64Value f
  | .String s => .stringValue s
  | .Array _ => .arrayStart
  | .Object _ => .objectStart

mutual

/-- Event stream of a value after its first event, annotated with the
stack-top views the parser reports: inside an array the top frame is the
element index, inside an object it is the field name, and after the
closing end marker it is the enclosing context `ctx` again. -/
def encodeBody : Option StackEl → Json → Parser
  | _, .Null => []
  | _, .Boolean _ => []
  | _, .I64 _ => []
  | _, .U64 _ => []
  | _, .F64 _ => []
  | _, .String _ => []
  | ctx, .Array xs => encodeElems 0 xs ++ [(.arrayEnd, ctx)]
  | ctx, .Object fs => encodeFields fs ++ [(.objectEnd, ctx)]

/-- Event stream of the elements of an array, starting at index `i`. -/
def encodeElems : Nat → List Json → Parser
  | _, [] => []
  | i, x :: t =>
    (firstEvent x, some (.Index i)) :: (encodeBody (some (.Index i)) x ++ encodeElems (i + 1) t)

/-- Event stream of the fields of an object body: each field value is
announced with the field name as the stack-top view. -/
def encodeFields : List (String × Json) → Parser
  | [] => []
  | (k, v) :: t =>
    (firstEvent v, some (.Key k)) :: (encodeBody (some (.Key k)) v ++ encodeFields t)

end

mutual

/-- The value the materializer rebuilds from the event stream of `v`:
scalars and array structure are preserved, and every object body is
re-accumulated by inserting its fields in stream order into a `BTreeMap`
(so duplicate keys are resolved to the last occurrence and keys come out
sorted). -/
def canon : Json → Json
  | .Null => .Null
  | .Boolean b => .Boolean b
  | .I64 i => .I64 i
  | .U64 u => .U64 u
  | .F64 f => .F64 f
  | .String s => .String s
  | .Array xs => .Array (canonElems xs)
  | .Object fs => .Object (canonFieldsAux [] fs)

/-- Elementwise `canon`. -/
def canonElems : List Json → List Json
  | [] => []
  | x :: t => canon x :: canonElems t

/-- Accumulating `BTreeMap` insertion of canonicalized field values, in
stream order. -/
def canonFieldsAux : List (String × Json) → List (String × Json) → List (String × Json)
  | acc, [] => acc
  | acc, (k, v) :: t => canonFieldsAux (bInsert acc k (canon v)) t

end

/-- A handler satisfies the handler contract of the spec when, handed the
first event of any value, it consumes exactly that value's event subtree
(and returns normally). -/
def ExactH (h : MHandler) : Prop :=
  ∀ (k : String) (v : Json) (ctx : Option StackEl) (tail : Parser),
    ∃ lg, h k (firstEvent v) (encodeBody ctx v ++ tail) =
      .ok ((encodeBody ctx v).length, lg)

/-- The first event of a value is never an object end marker. -/
theorem firstEvent_ne_objectEnd (v : Json) : firstEvent v ≠ .objectEnd := by
  cases v <;> simp [firstEvent]

/-- The first event of a value is never an array end marker. -/
theorem firstEvent_ne_arrayEnd (v : Json) : firstEvent v ≠ .arrayEnd := by
  cases v <;> simp [firstEvent]

/-- Main consumption lemma, by induction on the fuel: on the event stream
of a value followed by any tail, `read_value` consumes exactly the value's
events, returns its canonical rebuilding, leaves exactly the tail, and
logs nothing; correspondingly for object bodies and array element loops. -/
theorem mainConsume : ∀ n : Nat,
    (∀ (v : Json) (ctx : Option StackEl) (tail : Parser),
        2 * (encodeBody ctx v ++ tail).length + 2 ≤ n →
        readValueF n (firstEvent v) (encodeBody ctx v ++ tail) =
          some (.ok (canon v, tail, [])))
  ∧ (∀ (fs : List (String × Json)) (t : Option StackEl) (tail : Parser)
        (acc : List (String × Json)),
        2 * (encodeFields fs ++ (.objectEnd, t) :: tail).length + 1 ≤ n →
        readObjectF n (encodeFields fs ++ (.objectEnd, t) :: tail) acc =
          some (.ok (canonFieldsAux acc fs, tail, [])))
  ∧ (∀ (xs : List Json) (i : Nat) (t : Option StackEl) (tail : Parser)
        (acc : List Json),
        2 * (encodeElems i xs ++ (.arrayEnd, t) :: tail).length + 1 ≤ n →
        readArrayF n (encodeElems i xs ++ (.arrayEnd, t) :: tail) acc =
          some (.ok (acc ++ canonElems xs, tail, []))) := by
  intro n
  induction n with
  | zero =>
    exact ⟨fun v ctx tail h => absurd h (by omega),
           fun fs t tail acc h => absurd h (by omega),
           fun xs i t tail acc h => absurd h (by omega)⟩
  | succ n ih =>
    obtain ⟨ihV, ihO, ihA⟩ := ih
    refine ⟨?_, ?_, ?_⟩
    · intro v ctx tail hb
      cases v with
      | Null => simp [encodeBody, firstEvent, readValueF, canon]
      | Boolean b => simp [encodeBody, firstEvent, readValueF, canon]
      | I64 i => simp [encodeBody, firstEvent, readValueF, canon]
      | U64 u => simp [encodeBody, firstEvent, readValueF, canon]
      | F64 f => simp [encodeBody, firstEvent, readValueF, canon]
      | String s => simp [encodeBody, firstEvent, readValueF, canon]
      | Array xs =>
        have hp : encodeBody ctx (.Array xs) ++ tail
            = encodeElems 0 xs ++ ((.arrayEnd, ctx) :: tail) := by
          simp [encodeBody]
        rw [hp] at hb ⊢
        have h1 := ihA xs 0 ctx tail [] (by omega)
        simp [firstEvent, readValueF, h1, canon]
      | Object fs =>
        have hp : encodeBody ctx (.Object fs) ++ tail
            = encodeFields fs ++ ((.objectEnd, ctx) :: tail) := by
          simp [encodeBody]
        rw [hp] at hb ⊢
        have h1 := ihO fs ctx tail [] (by omega)
        simp [firstEvent, readValueF, h1, canon]
    · intro fs t tail acc hb
      cases fs with
      | nil => simp [encodeFields, readObjectF, canonFieldsAux]
      | cons kv t' =>
        obtain ⟨k, v⟩ := kv
        have hp : encodeFields ((k, v) :: t') ++ (.objectEnd, t) :: tail
            = (firstEvent v, some (.Key k)) ::
              (encodeBody (some (.Key k)) v ++
                (encodeFields t' ++ (.objectEnd, t) :: tail)) := by
          simp [encodeFields]
        rw [hp] at hb ⊢
        simp only [List.length_cons, List.length_append] at hb
        have h1 := ihV v (some (.Key k)) (encodeFields t' ++ (.objectEnd, t) :: tail)
          (by simp only [List.length_append, List.length_cons]; omega)
        have h2 := ihO t' t tail (bInsert acc k (canon v))
          (by simp only [List.length_append, List.length_cons]; omega)
        simp [readObjectF, firstEvent_ne_objectEnd v, h1, h2, canonFieldsAux]
    · intro xs i t tail acc hb
      cases xs with
      | nil => simp [encodeElems, readArrayF, canonElems]
      | cons x t' =>
        have hp : encodeElems i (x :: t') ++ (.arrayEnd, t) :: tail
            = (firstEvent x, some (.Index i)) ::
              (encodeBody (some (.Index i)) x ++
                (encodeElems (i + 1) t' ++ (.arrayEnd, t) :: tail)) := by
          simp [encodeElems]
        rw [hp] at hb ⊢
        simp only [List.length_cons, List.length_append] at hb
        have h1 := ihV x (some (.Index i)) (encodeElems (i + 1) t' ++ (.arrayEnd, t) :: tail)
          (by simp only [List.length_append, List.length_cons]; omega)
        have h2 := ihA t' (i + 1) t tail (acc ++ [canon x])
          (by simp only [List.length_append, List.length_cons]; omega)
        simp [readArrayF, firstEvent_ne_arrayEnd x, h1, h2, canonElems]

/-- Wrapper form of the consumption lemma for `read_value`. -/
theorem read_value_encode (v : Json) (ctx : Option StackEl) (tail : Parser) :
    read_value (firstEvent v) (encodeBody ctx v ++ tail) = .ok (canon v, tail, []) := by
  have h := (mainConsume (2 * (encodeBody ctx v ++ tail).length + 2)).1 v ctx tail (le_refl _)
  simp only [read_value, h, Option.getD_some]

/-- Exhaustion behaviour of the element loop: if the source ends before an
`ArrayEnd` is seen, the loop returns the elements accumulated so far, as if
the end marker had been reached. -/
theorem readArrayF_exhaust : ∀ (xs : List Json) (n i : Nat) (acc : List Json),
    2 * (encodeElems i xs).length + 1 ≤ n →
    readArrayF n (encodeElems i xs) acc = some (.ok (acc ++ canonElems xs, [], [])) := by
  intro xs
  induction xs with
  | nil =>
    intro n i acc hb
    cases n with
    | zero => exact absurd hb (by omega)
    | succ n => simp [encodeElems, readArrayF, canonElems]
  | cons x t ih =>
    intro n i acc hb
    cases n with
    | zero => exact absurd hb (by omega)
    | succ n =>
      have hp : encodeElems i (x :: t)
          = (firstEvent x, some (.Index i)) ::
            (encodeBody (some (.Index i)) x ++ encodeElems (i + 1) t) := by
        simp [encodeElems]
      rw [hp] at hb ⊢
      simp only [List.length_cons, List.length_append] at hb
      have h1 := (mainConsume n).1 x (some (.Index i)) (encodeElems (i + 1) t)
        (by simp only [List.length_append]; omega)
      have h2 := ih n (i + 1) (acc ++ [canon x]) (by omega)
      simp [readArrayF, firstEvent_ne_arrayEnd x, h1, h2, canonElems]

/-- Every panic message producible by the materializer functions is one of
the two stack-context panics of the record-reading loop; in particular the
element loop never panics with the "non-array found" message of
`array_handler`. -/
theorem errMsgs : ∀ n : Nat,
    (∀ (e : JsonEvent) (p : Parser) (m : String),
        readValueF n e p = some (.error m) → m = "invalid state" ∨ m = "no stack???")
  ∧ (∀ (p : Parser) (acc : List (String × Json)) (m : String),
        readObjectF n p acc = some (.error m) → m = "invalid state" ∨ m = "no stack???")
  ∧ (∀ (p : Parser) (acc : List Json) (m : String),
        readArrayF n p acc = some (.error m) → m = "invalid state" ∨ m = "no stack???") := by
  intro n
  induction n with
  | zero =>
    exact ⟨fun e p m h => by simp [readValueF] at h,
           fun p acc m h => by simp [readObjectF] at h,
           fun p acc m h => by simp [readArrayF] at h⟩
  | succ n ih =>
    obtain ⟨ihV, ihO, ihA⟩ := ih
    refine ⟨?_, ?_, ?_⟩
    · intro e p m h
      cases e with
      | objectStart =>
        simp only [readValueF] at h
        rcases hh : readObjectF n p [] with _ | e0 | r0
        · rw [hh] at h; simp at h
        · rw [hh] at h; simp at h; exact h ▸ ihO p [] e0 hh
        · rw [hh] at h; simp at h
      | arrayStart =>
        simp only [readValueF] at h
        rcases hh : readArrayF n p [] with _ | e0 | r0
        · rw [hh] at h; simp at h
        · rw [hh] at h; simp at h; exact h ▸ ihA p [] e0 hh
        · rw [hh] at h; simp at h
      | booleanValue b => simp [readValueF] at h
      | i64Value i => simp [readValueF] at h
      | u64Value u => simp [readValueF] at h
      | f64Value f => simp [readValueF] at h
      | stringValue s => simp [readValueF] at h
      | nullValue => simp [readValueF] at h
      | objectEnd => simp [readValueF] at h
      | arrayEnd => simp [readValueF] at h
      | errorEvent => simp [readValueF] at h
    · intro p acc m h
      rcases p with _ | ⟨⟨token, top⟩, rest⟩
      · simp [readObjectF] at h
      · simp only [readObjectF] at h
        by_cases ht : token = .objectEnd
        · rw [if_pos ht] at h; simp at h
        · rw [if_neg ht] at h
          rcases top with _ | i | k
          · simp at h; exact Or.inr h.symm
          · simp at h; exact Or.inl h.symm
          · rcases hh : readValueF n token rest with _ | e0 | ⟨v, p', lg⟩
            · rw [hh] at h; simp at h
            · rw [hh] at h; simp at h; exact h ▸ ihV token rest e0 hh
            · rw [hh] at h
              dsimp only at h
              rcases hh2 : readObjectF n p' (bInsert acc k v) with _ | e1 | r1
              · rw [hh2] at h; simp at h
              · rw [hh2] at h; simp at h; exact h ▸ ihO p' (bInsert acc k v) e1 hh2
              · rw [hh2] at h; simp at h
    · intro p acc m h
      rcases p with _ | ⟨⟨token, top⟩, rest⟩
      · simp [readArrayF] at h
      · simp only [readArrayF] at h
        by_cases ht : token = .arrayEnd
        · rw [if_pos ht] at h; simp at h
        · rw [if_neg ht] at h
          rcases hh : readValueF n token rest with _ | e0 | ⟨v, p', lg⟩
          · rw [hh] at h; simp at h
          · rw [hh] at h; simp at h; exact h ▸ ihV token rest e0 hh
          · rw [hh] at h
            dsimp only at h
            rcases hh2 : readArrayF n p' (acc ++ [v]) with _ | e1 | r1
            · rw [hh2] at h; simp at h
            · rw [hh2] at h; simp at h; exact h ▸ ihA p' (acc ++ [v]) e1 hh2
            · rw [hh2] at h; simp at h

/-- The dummy handler satisfies the handler contract: it consumes exactly
the value it is handed. -/
theorem exactH_dummy : ExactH dummy_handler := by
  intro k v ctx tail
  refine ⟨[], ?_⟩
  have h := read_value_encode v ctx tail
  simp [dummy_handler, h, List.length_append]

/-- A successful registry lookup returns a registered entry. -/
theorem bLookup_mem {α : Type} : ∀ (l : List (String × α)) (k : String) (a : α),
    bLookup l k = some a → (k, a) ∈ l := by
  intro l
  induction l with
  | nil => intro k a h; simp [bLookup] at h
  | cons kv t ih =>
    intro k a h
    obtain ⟨k', v⟩ := kv
    simp only [bLookup] at h
    by_cases hk : k = k'
    · rw [if_pos hk] at h
      simp at h
      subst hk; subst h
      exact List.mem_cons_self _ _
    · rw [if_neg hk] at h
      exact List.mem_cons_of_mem _ (ih k a h)

/-- Dispatch trace of `StreamReader::read_object` on an encoded record
body, for any registry whose handlers (registered and default) satisfy the
handler contract: every field is dispatched exactly once, in stream order,
carrying the field name and the first event of the field value, to the
registered handler when one exists and to the default handler otherwise,
and the traversal consumes exactly through the end marker. -/
theorem srRead_encode : ∀ (fs : List (String × Json)) (n : Nat) (sr : StreamReader)
    (t : Option StackEl) (tail : Parser),
    (∀ kh ∈ sr.handlers, ExactH kh.2) → ExactH sr.default_handler →
    (encodeFields fs ++ (.objectEnd, t) :: tail).length + 1 ≤ n →
    ∃ lg, srReadObjectF n sr (encodeFields fs ++ (.objectEnd, t) :: tail) =
      some (.ok (tail,
        fs.map (fun kv => (kv.1, firstEvent kv.2, (bLookup sr.handlers kv.1).isSome)), lg)) := by
  intro fs
  induction fs with
  | nil =>
    intro n sr t tail hreg hdef hb
    cases n with
    | zero => exact absurd hb (by omega)
    | succ n => exact ⟨[], by simp [encodeFields, srReadObjectF]⟩
  | cons kv t' ih =>
    intro n sr t tail hreg hdef hb
    obtain ⟨k, v⟩ := kv
    cases n with
    | zero => exact absurd hb (by omega)
    | succ n =>
      have hp : encodeFields ((k, v) :: t') ++ (.objectEnd, t) :: tail
          = (firstEvent v, some (.Key k)) ::
            (encodeBody (some (.Key k)) v ++
              (encodeFields t' ++ (.objectEnd, t) :: tail)) := by
        simp [encodeFields]
      rw [hp] at hb ⊢
      have hex : ExactH ((bLookup sr.handlers k).getD sr.default_handler) := by
        cases hl : bLookup sr.handlers k with
        | none => simpa using hdef
        | some h0 => simpa using hreg (k, h0) (bLookup_mem sr.handlers k h0 hl)
      obtain ⟨lg0, hrun⟩ := hex k v (some (.Key k)) (encodeFields t' ++ (.objectEnd, t) :: tail)
      have hdrop : (encodeBody (some (.Key k)) v ++
          (encodeFields t' ++ (.objectEnd, t) :: tail)).drop
          (encodeBody (some (.Key k)) v).length
          = encodeFields t' ++ (.objectEnd, t) :: tail := List.drop_left _ _
      simp only [List.length_cons, List.length_append] at hb
      obtain ⟨lg1, hrec⟩ := ih n sr t tail hreg hdef
        (by simp only [List.length_append, List.length_cons]; omega)
      refine ⟨lg0 ++ lg1, ?_⟩
      simp [srReadObjectF, firstEvent_ne_objectEnd v, hrun, hdrop, hrec]

/-- A normal return of the record-reading loop happens only by source
exhaustion or by consuming an `ObjectEnd` as the last event before the
leftover stream. -/
theorem srReadObjectF_ok : ∀ (n : Nat) (sr : StreamReader) (p pf : Parser)
    (tr : List (String × JsonEvent × Bool)) (lg : List JsonEvent),
    srReadObjectF n sr p = some (.ok (pf, tr, lg)) →
    pf = [] ∨ ∃ (q : Parser) (t : Option StackEl), p = q ++ (.objectEnd, t) :: pf := by
  intro n
  induction n with
  | zero => intro sr p pf tr lg h; simp [srReadObjectF] at h
  | succ n ih =>
    intro sr p pf tr lg h
    rcases p with _ | ⟨⟨token, top⟩, rest⟩
    · simp [srReadObjectF] at h
      exact Or.inl h.1
    · simp only [srReadObjectF] at h
      by_cases ht : token = .objectEnd
      · rw [if_pos ht] at h
        simp at h
        subst ht
        exact Or.inr ⟨[], top, by simp [h.1]⟩
      · rw [if_neg ht] at h
        rcases top with _ | i | k
        · simp at h
        · simp at h
        · dsimp only at h
          rcases hrun : (bLookup sr.handlers k).getD sr.default_handler k token rest
            with e | ⟨cnt, lg0⟩
          · rw [hrun] at h; simp at h
          · rw [hrun] at h
            dsimp only at h
            rcases hrec : srReadObjectF n sr (rest.drop cnt) with _ | e1 | ⟨pf1, tr1, lg1⟩
            · rw [hrec] at h; simp at h
            · rw [hrec] at h; simp at h
            · rw [hrec] at h
              simp at h
              obtain ⟨hpf, htr, hlg⟩ := h
              rcases ih sr (rest.drop cnt) pf1 tr1 lg1 hrec with h0 | ⟨q', t', hq⟩
              · exact Or.inl (by rw [← hpf]; exact h0)
              · rw [hpf] at hq
                obtain ⟨q0, hq0⟩ := List.drop_suffix cnt rest
                refine Or.inr ⟨(token, some (.Key k)) :: (q0 ++ q'), t', ?_⟩
                rw [List.cons_append, List.append_assoc, ← hq, hq0]

/-- Irreflexivity of the character-list order. -/
theorem charListLt_self : ∀ l, charListLt l l = false := by
  intro l
  induction l with
  | nil => rfl
  | cons a s ih => simp [charListLt, lt_irrefl, ih]

/-- Irreflexivity of the string order. -/
theorem strLt_self (s : String) : strLt s s = false := charListLt_self _

/-- Registering a handler twice under the same key keeps only the later
one: `BTreeMap::insert` replaces on equal keys. -/
theorem bInsert_bInsert {α : Type} : ∀ (l : List (String × α)) (k : String) (a b : α),
    bInsert (bInsert l k a) k b = bInsert l k b := by
  intro l k a b
  induction l with
  | nil => simp [bInsert, strLt_self]
  | cons kv t ih =>
    obtain ⟨k', v'⟩ := kv
    by_cases h1 : strLt k k' = true
    · simp [bInsert, h1, strLt_self]
    · by_cases h2 : k = k'
      · simp [bInsert, h1, h2, strLt_self]
      · simp [bInsert, h1, h2, ih]

/-- C1: after any built-in handler invocation for a field value (the dummy
handler, the copy handler, and direct materialization via `read_value`),
the source is positioned exactly at the event following the value's
complete subtree: `read_value` returns leaving exactly `tail`, the dummy
handler reports having consumed exactly the value's events (so the next
pull yields the head of `tail`, the next sibling's first event or the end
marker), and the copy handler likewise leaves exactly `tail` after
inserting the materialized value into its target. -/
theorem claim_C1 (v : Json) (ctx : Option StackEl) (tail : Parser)
    (key : String) (target : List (String × Json)) :
    read_value (firstEvent v) (encodeBody ctx v ++ tail) = .ok (canon v, tail, [])
    ∧ dummy_handler key (firstEvent v) (encodeBody ctx v ++ tail) =
        .ok ((encodeBody ctx v).length, [])
    ∧ (encodeBody ctx v ++ tail).drop (encodeBody ctx v).length = tail
    ∧ copy_handler target key (firstEvent v) (encodeBody ctx v ++ tail) =
        .ok (bInsert target key (canon v), tail, []) := by
  have h := read_value_encode v ctx tail
  refine ⟨h, ?_, List.drop_left _ _, ?_⟩
  · simp [dummy_handler, h, List.length_append]
  · simp [copy_handler, h]

/-- C2 counterexample: an event stream that is exhausted before the started
array's ArrayEnd does NOT raise a fatal failure: `read_array` returns the
partial array `[1]` normally, contradicting the claim that a
PrematureExhaustion failure is propagated and no partial Array is
returned. -/
theorem claim_C2_counterexample :
    read_array [(.i64Value 1, some (.Index 0))] = .ok ([.I64 1], [], []) := by rfl

/-- C2 amended: if the event source is exhausted before a started array's
ArrayEnd event is reached, array materialization terminates as if the end
marker had been reached and returns the partial Array of the elements
accumulated so far; no failure is raised. -/
theorem claim_C2_amended (xs : List Json) (i : Nat) :
    read_array (encodeElems i xs) = .ok (canonElems xs, [], []) := by
  have h := readArrayF_exhaust xs (2 * (encodeElems i xs).length + 2) i [] (by omega)
  simp [read_array, array_handler, h]

/-- C3: during `StreamReader::read_object`, every field event pulled leads
to exactly one handler invocation, in stream order, carrying the field
name and the just-pulled first event of the field value; the invocation
goes to the handler registered under that name when one exists (trace flag
`true`) and to the default handler otherwise (trace flag `false`). -/
theorem claim_C3 (sr : StreamReader) (fs : List (String × Json)) (t : Option StackEl)
    (tail : Parser) (hreg : ∀ kh ∈ sr.handlers, ExactH kh.2)
    (hdef : ExactH sr.default_handler) :
    ∃ lg, sr.read_object (encodeFields fs ++ (.objectEnd, t) :: tail) =
      .ok (tail,
        fs.map (fun kv => (kv.1, firstEvent kv.2, (bLookup sr.handlers kv.1).isSome)), lg) := by
  obtain ⟨lg, h⟩ := srRead_encode fs
    ((encodeFields fs ++ (.objectEnd, t) :: tail).length + 1) sr t tail hreg hdef (le_refl _)
  exact ⟨lg, by simp only [StreamReader.read_object, h, Option.getD_some]⟩

/-- C3 witness: on the record `\x7b"x": 1, "y": 2\x7d` with a handler
registered for `"x"`, that handler is invoked exactly once carrying field
name `"x"` and first event `I64Value(1)`, and field `"y"` is routed to the
default handler. -/
theorem claim_C3_witness :
    ∃ lg, (StreamReader.new.set_handler "x" dummy_handler).read_object
        [(.i64Value 1, some (.Key "x")), (.i64Value 2, some (.Key "y")), (.objectEnd, none)] =
      .ok ([], [("x", .i64Value 1, true), ("y", .i64Value 2, false)], lg) := by
  obtain ⟨lg, h⟩ := claim_C3 (StreamReader.new.set_handler "x" dummy_handler)
      [("x", .I64 1), ("y", .I64 2)] none []
      (by
        intro kh hkh
        simp [StreamReader.new, StreamReader.set_handler, bInsert] at hkh
        subst hkh
        exact exactH_dummy)
      exactH_dummy
  refine ⟨lg, ?_⟩
  simpa [encodeFields, encodeBody, firstEvent, StreamReader.new, StreamReader.set_handler,
    bInsert, bLookup] using h

/-- C4: `read_value` on an object start returns the Record built by
inserting, for each field of the body in stream order, the field name
mapped to its recursively materialized value (that is `canon`), consuming
through the matching end marker; on an array start it returns the Array of
the recursively materialized elements in stream order. Concretely,
materializing the body of `\x7b"a": \x7b"b": [1,2,3]\x7d\x7d` yields
Record(a, Record(b, Array(1,2,3))) with no leftover events, and the
per-element callback of the array handler run on the value of key `"b"`
is invoked exactly three times with 1, 2, 3 in order. -/
theorem claim_C4 :
    (∀ (v : Json) (ctx : Option StackEl) (tail : Parser),
        read_value (firstEvent v) (encodeBody ctx v ++ tail) = .ok (canon v, tail, []))
    ∧ read_value .objectStart
        [(.objectStart, some (.Key "a")), (.arrayStart, some (.Key "b")),
         (.i64Value 1, some (.Index 0)), (.i64Value 2, some (.Index 1)),
         (.i64Value 3, some (.Index 2)), (.arrayEnd, some (.Key "b")),
         (.objectEnd, some (.Key "a")), (.objectEnd, none)] =
      .ok (.Object [("a", .Object [("b", .Array [.I64 1, .I64 2, .I64 3])])], [], [])
    ∧ array_handler .arrayStart
        [(.i64Value 1, some (.Index 0)), (.i64Value 2, some (.Index 1)),
         (.i64Value 3, some (.Index 2)), (.arrayEnd, some (.Key "b")),
         (.objectEnd, some (.Key "a")), (.objectEnd, none)] =
      .ok ([.I64 1, .I64 2, .I64 3],
        [(.objectEnd, some (.Key "a")), (.objectEnd, none)], []) :=
  ⟨read_value_encode, by rfl, by rfl⟩

/-- C5: when `read_value` receives an event that is not a valid value
start (a stray end marker or the parser's error token), it reports the
anomaly on the log (the println channel), returns `Null` instead of
aborting, and does not advance the parser; the anomaly never escapes, and
traversal continues normally: in a record whose first field value is
malformed, the second field still materializes (field b yields 2). -/
theorem claim_C5 (p : Parser) :
    read_value .objectEnd p = .ok (.Null, p, [.objectEnd])
    ∧ read_value .arrayEnd p = .ok (.Null, p, [.arrayEnd])
    ∧ read_value .errorEvent p = .ok (.Null, p, [.errorEvent])
    ∧ read_object [(.errorEvent, some (.Key "a")), (.i64Value 2, some (.Key "b")),
        (.objectEnd, none)] =
      .ok ([("a", .Null), ("b", .I64 2)], [], [.errorEvent]) := by
  refine ⟨?_, ?_, ?_, by rfl⟩ <;> rfl

/-- C6: `StreamReader::read_object` returns normally exactly by the two
loop exits: immediately on an exhausted source, immediately on pulling the
end marker, and every normal return arises from one of these (the leftover
stream is empty, or the last consumed event was the ObjectEnd just before
the leftover stream). -/
theorem claim_C6 :
    (∀ sr : StreamReader, sr.read_object [] = .ok ([], [], []))
    ∧ (∀ (sr : StreamReader) (t : Option StackEl) (rest : Parser),
        sr.read_object ((.objectEnd, t) :: rest) = .ok (rest, [], []))
    ∧ (∀ (sr : StreamReader) (p pf : Parser) (tr : List (String × JsonEvent × Bool))
        (lg : List JsonEvent), sr.read_object p = .ok (pf, tr, lg) →
        pf = [] ∨ ∃ (q : Parser) (t : Option StackEl), p = q ++ (.objectEnd, t) :: pf) := by
  refine ⟨fun sr => by rfl, fun sr t rest => ?_, ?_⟩
  · simp [StreamReader.read_object, srReadObjectF]
  · intro sr p pf tr lg h
    simp only [StreamReader.read_object] at h
    rcases hh : srReadObjectF (p.length + 1) sr p with _ | e | r
    · rw [hh] at h; simp at h
    · rw [hh] at h; simp at h
    · rw [hh, Option.getD_some] at h
      rw [h] at hh
      exact srReadObjectF_ok _ sr p pf tr lg hh

/-- C6 witness: the two normal loop exits at a concrete input. -/
theorem claim_C6_witness :
    ([] : Parser) = []
    ∨ ∃ (q : Parser) (t : Option StackEl),
        [((JsonEvent.objectEnd), (none : Option StackEl))] = q ++ (.objectEnd, t) :: ([] : Parser) :=
  claim_C6.2.2 StreamReader.new [(.objectEnd, none)] [] [] []
    (claim_C6.2.1 StreamReader.new none [])

/-- C7: if, after pulling a field event, the stack context does not have a
field-name frame on top — the top frame is an array index, or the stack is
empty — `StreamReader::read_object` panics immediately, for every such
context. -/
theorem claim_C7 :
    (∀ (sr : StreamReader) (token : JsonEvent) (i : Nat) (rest : Parser),
        token ≠ .objectEnd →
        sr.read_object ((token, some (.Index i)) :: rest) = .error "invalid state")
    ∧ (∀ (sr : StreamReader) (token : JsonEvent) (rest : Parser),
        token ≠ .objectEnd →
        sr.read_object ((token, none) :: rest) = .error "no stack???") := by
  constructor
  · intro sr token i rest h
    simp [StreamReader.read_object, srReadObjectF, h]
  · intro sr token rest h
    simp [StreamReader.read_object, srReadObjectF, h]

/-- C7 witness: both bad-context panics at concrete inputs. -/
theorem claim_C7_witness :
    StreamReader.new.read_object [(.nullValue, some (.Index 0))] = .error "invalid state"
    ∧ StreamReader.new.read_object [(.nullValue, none)] = .error "no stack???" :=
  ⟨claim_C7.1 StreamReader.new .nullValue 0 [] (by decide),
   claim_C7.2 StreamReader.new .nullValue [] (by decide)⟩

/-- C8: a handler produced by `array_handler` fails with "non-array found"
exactly when its first event is not ArrayStart: on any other first event
it panics with that message; on ArrayStart it never produces that failure,
and on an encoded array it consumes the elements through ArrayEnd,
invoking the per-element callback once per element in order. -/
theorem claim_C8 :
    (∀ (first : JsonEvent) (p : Parser), first ≠ .arrayStart →
        array_handler first p = .error "non-array found")
    ∧ (∀ p : Parser, array_handler .arrayStart p ≠ .error "non-array found")
    ∧ (∀ (xs : List Json) (i : Nat) (t : Option StackEl) (tail : Parser),
        array_handler .arrayStart (encodeElems i xs ++ (.arrayEnd, t) :: tail) =
          .ok (canonElems xs, tail, [])) := by
  refine ⟨?_, ?_, ?_⟩
  · intro first p h
    simp [array_handler, h]
  · intro p h
    simp only [array_handler, if_pos] at h
    rcases hh : readArrayF (2 * p.length + 2) p [] with _ | e | r
    · rw [hh] at h
      simp only [Option.getD_none] at h
      injection h with h
      exact absurd h (by decide)
    · rw [hh] at h
      simp only [Option.getD_some] at h
      injection h with h
      rcases (errMsgs (2 * p.length + 2)).2.2 p [] e hh with h0 | h0 <;>
        rw [h0] at h <;> exact absurd h (by decide)
    · rw [hh] at h
      simp at h
  · intro xs i t tail
    have h := (mainConsume (2 * (encodeElems i xs ++ (.arrayEnd, t) :: tail).length + 2)).2.2
      xs i t tail [] (by omega)
    simp only [array_handler, if_pos, h, Option.getD_some, List.nil_append]

/-- C8 witness: the "non-array found" panic at a concrete non-array first
event. -/
theorem claim_C8_witness :
    array_handler .nullValue [] = .error "non-array found" :=
  claim_C8.1 .nullValue [] (by decide)

/-- C9: every scalar first event maps one-to-one to the matching scalar
Value variant, and the parser is not advanced by the call (no further
reads, empty log). -/
theorem claim_C9 (b : Bool) (i : Int) (u : Nat) (f : Nat) (s : String) (p : Parser) :
    read_value (.booleanValue b) p = .ok (.Boolean b, p, [])
    ∧ read_value (.i64Value i) p = .ok (.I64 i, p, [])
    ∧ read_value (.u64Value u) p = .ok (.U64 u, p, [])
    ∧ read_value (.f64Value f) p = .ok (.F64 f, p, [])
    ∧ read_value (.stringValue s) p = .ok (.String s, p, [])
    ∧ read_value .nullValue p = .ok (.Null, p, []) := by
  refine ⟨?_, ?_, ?_, ?_, ?_, ?_⟩
  · simpa [encodeBody, firstEvent, canon] using read_value_encode (.Boolean b) none p
  · simpa [encodeBody, firstEvent, canon] using read_value_encode (.I64 i) none p
  · simpa [encodeBody, firstEvent, canon] using read_value_encode (.U64 u) none p
  · simpa [encodeBody, firstEvent, canon] using read_value_encode (.F64 f) none p
  · simpa [encodeBody, firstEvent, canon] using read_value_encode (.String s) none p
  · simpa [encodeBody, firstEvent, canon] using read_value_encode .Null none p

/-- C10: registering a handler twice under the same name leaves the
reader as if only the second registration had been made, and subsequent
traversals behave identically. -/
theorem claim_C10 (sr : StreamReader) (name : String) (h1 h2 : MHandler) :
    (sr.set_handler name h1).set_handler name h2 = sr.set_handler name h2
    ∧ ∀ p : Parser, ((sr.set_handler name h1).set_handler name h2).read_object p =
        (sr.set_handler name h2).read_object p := by
  have he : (sr.set_handler name h1).set_handler name h2 = sr.set_handler name h2 := by
    simp [StreamReader.set_handler, bInsert_bInsert]
  exact ⟨he, fun p => by rw [he]⟩

end JsonStreamer
